import Mathlib

/-!
Verification of the transactional in-memory key/value store
(`src/in_memory_db/simple_db.py`).

The embedding is shallow.  Python dicts are modelled as association lists
with Python dict semantics: `dictGet` returns the first binding of a key,
`dictInsert` updates an existing binding in place (keeping its position) or
appends a new one at the end, `dictErase` removes the binding.  All states
reachable through the API keep keys duplicate-free, so the first binding is
the only one.

The class `InMemoryDB` becomes a structure with the three state fields
(`db`, `value_count`, `transactions`) and each method becomes a function
from the structure to the structure (plus the returned value where the
method returns one).  The Python transaction list appends and pops at the
end; here the stack is held innermost frame FIRST (head of the list),
which is the same stack with the orientation reversed.

The thread lock is not modelled: every operation is a single atomic step
of the state, which is exactly what holding the lock for the whole method
body gives.

The command loop `main` is modelled one line at a time by `processLine`,
taking the already tokenized line (Python `input().strip().split()`); a
list access outside the range of the token list, which in Python raises an
uncaught IndexError (only EOFError is caught), is modelled by the `crash`
result.
-/

/-- Python `d.get(k)` / `d[k]`: the value of the first binding of `k`. -/
def dictGet {α β : Type} [DecidableEq α] (d : List (α × β)) (k : α) : Option β :=
  match d with
  | [] => none
  | (k', v) :: rest => if k = k' then some v else dictGet rest k

/-- Python `d[k] = v`: replace the first binding of `k` in place, or append. -/
def dictInsert {α β : Type} [DecidableEq α] (d : List (α × β)) (k : α) (v : β) :
    List (α × β) :=
  match d with
  | [] => [(k, v)]
  | (k', v') :: rest =>
      if k = k' then (k', v) :: rest else (k', v') :: dictInsert rest k v

/-- Python `del d[k]`: drop the first binding of `k` (no-op when absent). -/
def dictErase {α β : Type} [DecidableEq α] (d : List (α × β)) (k : α) :
    List (α × β) :=
  match d with
  | [] => []
  | (k', v') :: rest => if k = k' then rest else (k', v') :: dictErase rest k

/-- The key list of an association list. -/
def dictKeys {α β : Type} (d : List (α × β)) : List α := d.map Prod.fst

@[simp] theorem dictKeys_nil {α β : Type} : dictKeys ([] : List (α × β)) = [] := rfl

@[simp] theorem dictKeys_cons {α β : Type} (p : α × β) (d : List (α × β)) :
    dictKeys (p :: d) = p.1 :: dictKeys d := rfl

/-- The state of `InMemoryDB`: main storage `db`, the value counter
`value_count`, and the transaction stack (innermost frame first; each frame
maps a name to its previous value, `none` standing for Python `None`,
absence of the name before the first mutation in the frame). -/
structure InMemoryDB where
  db : List (String × String)
  value_count : List (String × Int)
  transactions : List (List (String × Option String))
deriving DecidableEq, Repr

/-- Python `InMemoryDB.__init__`: all three fields empty. -/
def InMemoryDB.init : InMemoryDB := ⟨[], [], []⟩

/-- Python `InMemoryDB._update_value_count(old_value, new_value)`.  The body
writes `count - 1` for `old_value` and deletes the entry when that count is
exactly 0; writing then deleting is the same list as deleting directly, and
writing a key that is absent then deleting it returns the original list,
which `dictErase` of an absent key also does. -/
def updateValueCount (vc : List (String × Int)) (old_value new_value : Option String) :
    List (String × Int) :=
  let vc1 :=
    match old_value with
    | none => vc
    | some ov =>
        let c := (dictGet vc ov).getD 0 - 1
        if c = 0 then dictErase vc ov else dictInsert vc ov c
  match new_value with
  | none => vc1
  | some nv => dictInsert vc1 nv ((dictGet vc1 nv).getD 0 + 1)

/-- Python `InMemoryDB.set(name, value)`. -/
def InMemoryDB.set (s : InMemoryDB) (name value : String) : InMemoryDB :=
  let old_value := dictGet s.db name
  let transactions :=
    match s.transactions with
    | [] => s.transactions
    | current_transaction :: rest =>
        if (dictGet current_transaction name).isSome then
          current_transaction :: rest
        else
          dictInsert current_transaction name old_value :: rest
  { db := dictInsert s.db name value
    value_count := updateValueCount s.value_count old_value (some value)
    transactions := transactions }

/-- Python `InMemoryDB.get(name)`, which returns the value of the name in
`db`, defaulting to the string NULL. -/
def InMemoryDB.get (s : InMemoryDB) (name : String) : String :=
  (dictGet s.db name).getD "NULL"

/-- Python `InMemoryDB.unset(name)`: no-op when the name is unbound. -/
def InMemoryDB.unset (s : InMemoryDB) (name : String) : InMemoryDB :=
  match dictGet s.db name with
  | none => s
  | some old_value =>
      let transactions :=
        match s.transactions with
        | [] => s.transactions
        | current_transaction :: rest =>
            if (dictGet current_transaction name).isSome then
              current_transaction :: rest
            else
              dictInsert current_transaction name (some old_value) :: rest
      { db := dictErase s.db name
        value_count := updateValueCount s.value_count (some old_value) none
        transactions := transactions }

/-- Python `InMemoryDB.numequalto(value)`, returning `self.value_count.get(value, 0)`. -/
def InMemoryDB.numequalto (s : InMemoryDB) (value : String) : Int :=
  (dictGet s.value_count value).getD 0

/-- Python `InMemoryDB.begin()`: push a fresh empty frame. -/
def InMemoryDB.begin (s : InMemoryDB) : InMemoryDB :=
  { s with transactions := [] :: s.transactions }

/-- The restoration loop of `InMemoryDB.rollback`: for each recorded
`(name, old_value)` of the popped frame, in insertion order, restore `db`
and `value_count`, reading the current value of `name` at that moment. -/
def rollbackRestore (s : InMemoryDB) (entries : List (String × Option String)) :
    InMemoryDB :=
  match entries with
  | [] => s
  | (name, old_value) :: rest =>
      let current_value := dictGet s.db name
      let s' :=
        match old_value with
        | none =>
            if (dictGet s.db name).isSome then
              { s with db := dictErase s.db name
                       value_count := updateValueCount s.value_count current_value none }
            else s
        | some ov =>
            { s with db := dictInsert s.db name ov
                     value_count := updateValueCount s.value_count current_value (some ov) }
      rollbackRestore s' rest

/-- Python `InMemoryDB.rollback()`: the returned status (the method returns the string
"NO TRANSACTION" or falls off the end, returning `None`) together with the
new state. -/
def InMemoryDB.rollback (s : InMemoryDB) : Option String × InMemoryDB :=
  match s.transactions with
  | [] => (some "NO TRANSACTION", s)
  | transaction :: rest =>
      (none, rollbackRestore { s with transactions := rest } transaction)

/-- Python `InMemoryDB.commit()`: runs `self.transactions.clear()` when non-empty. -/
def InMemoryDB.commit (s : InMemoryDB) : Option String × InMemoryDB :=
  match s.transactions with
  | [] => (some "NO TRANSACTION", s)
  | _ :: _ => (none, { s with transactions := [] })

/-- One store operation, for quantifying over call sequences. -/
inductive Op where
  | set (name value : String)
  | unset (name : String)
  | get (name : String)
  | numequalto (value : String)
  | begin
  | rollback
  | commit
deriving DecidableEq, Repr

/-- The state effect of one operation (reads leave the state unchanged,
which is exactly what the corresponding Python methods do). -/
def applyOp (s : InMemoryDB) : Op → InMemoryDB
  | .set name value => s.set name value
  | .unset name => s.unset name
  | .get _ => s
  | .numequalto _ => s
  | .begin => s.begin
  | .rollback => (s.rollback).2
  | .commit => (s.commit).2

/-- Run a sequence of operations left to right. -/
def runOps (s : InMemoryDB) (ops : List Op) : InMemoryDB := ops.foldl applyOp s

/-- Python `command[0].upper()`.  Character by character upper-casing;
on the ASCII command words this is exactly `str.upper`. -/
def strUpper (s : String) : String := ⟨s.data.map Char.toUpper⟩

/-- Result of `main` processing one input line: printed lines and new state,
a halt (the END command or end of input), or a crash by an uncaught
exception. -/
inductive StepResult where
  | cont (out : List String) (s : InMemoryDB)
  | halt (s : InMemoryDB)
  | crash (s : InMemoryDB)
deriving DecidableEq, Repr

/-- The dispatch in `main` on one tokenized line, guard for guard.  Token
accesses `command[1]`, `command[2]` are the Python list accesses that can
be out of range and produce `crash` when out of range (main catches only EOFError).
Note the `NUMEQUALTO` branch reads `command[2]` after checking that the
line has exactly 2 tokens, and the `BEGIN`, `ROLLBACK`, `COMMIT` and `END`
branches check no arity. -/
def processLine (s : InMemoryDB) (command : List String) : StepResult :=
  match command with
  | [] => .cont [] s
  | c0 :: _ =>
      if strUpper c0 = "END" then .halt s
      else if strUpper c0 = "SET" ∧ command.length = 3 then
        match command[1]?, command[2]? with
        | some name, some value => .cont [] (s.set name value)
        | _, _ => .crash s
      else if strUpper c0 = "GET" ∧ command.length = 2 then
        match command[1]? with
        | some name => .cont [s.get name] s
        | none => .crash s
      else if strUpper c0 = "UNSET" ∧ command.length = 2 then
        match command[1]? with
        | some name => .cont [] (s.unset name)
        | none => .crash s
      else if strUpper c0 = "NUMEQUALTO" ∧ command.length = 2 then
        match command[2]? with
        | some value => .cont [toString (s.numequalto value)] s
        | none => .crash s
      else if strUpper c0 = "BEGIN" then .cont [] s.begin
      else if strUpper c0 = "ROLLBACK" then
        match s.rollback with
        | (some msg, s') => .cont [msg] s'
        | (none, s') => .cont [] s'
      else if strUpper c0 = "COMMIT" then
        match s.commit with
        | (some msg, s') => .cont [msg] s'
        | (none, s') => .cont [] s'
      else .cont ["Invalid command"] s

-- Sanity checks: the concrete scenarios of the test suite.
example :
    (InMemoryDB.init.set "x" "10").get "x" = "10" := by decide
example :
    ((InMemoryDB.init.set "x" "10").set "y" "10").numequalto "10" = 2 := by decide
example :
    (((InMemoryDB.init.set "x" "10").set "y" "10").unset "x").numequalto "10" = 1 := by
  decide
example :
    (((InMemoryDB.init.set "x" "10").begin).set "x" "20").get "x" = "20" := by decide
example :
    ((((InMemoryDB.init.set "x" "10").begin).set "x" "20").rollback).2.get "x" = "10" := by
  decide
example :
    (runOps InMemoryDB.init
      [.set "x" "10", .begin, .set "x" "20", .begin, .set "x" "30", .commit]).get "x"
      = "30" := by decide
example :
    (runOps InMemoryDB.init
      [.set "x" "10", .begin, .set "x" "20", .begin, .set "x" "30",
       .commit]).rollback.1 = some "NO TRANSACTION" := by decide
example : InMemoryDB.init.rollback.1 = some "NO TRANSACTION" := by decide
example : InMemoryDB.init.commit.1 = some "NO TRANSACTION" := by decide
example :
    (runOps InMemoryDB.init
      [.set "x" "10", .set "y" "10", .begin, .set "x" "20"]).numequalto "10" = 1 := by
  decide
example :
    (runOps InMemoryDB.init
      [.set "x" "10", .set "y" "10", .begin, .set "x" "20", .rollback]).numequalto "10"
      = 2 := by decide
example :
    processLine InMemoryDB.init ["NUMEQUALTO", "10"]
      = .crash InMemoryDB.init := by decide
example :
    processLine InMemoryDB.init ["BEGIN", "zzz"]
      = .cont [] InMemoryDB.init.begin := by decide

/-! ### Association-list lemmas -/

theorem dictGet_insert_self {α β : Type} [DecidableEq α] (d : List (α × β)) (k : α)
    (v : β) : dictGet (dictInsert d k v) k = some v := by
  induction d with
  | nil => simp [dictInsert, dictGet]
  | cons p rest ih =>
      obtain ⟨k', v'⟩ := p
      by_cases h : k = k' <;> simp [dictInsert, dictGet, h, ih]

theorem dictGet_insert_ne {α β : Type} [DecidableEq α] (d : List (α × β)) (k k' : α)
    (v : β) (h : k' ≠ k) : dictGet (dictInsert d k v) k' = dictGet d k' := by
  induction d with
  | nil => simp [dictInsert, dictGet, h]
  | cons p rest ih =>
      obtain ⟨k0, v0⟩ := p
      by_cases hk : k = k0
      · subst hk
        simp [dictInsert, dictGet, h, ih]
      · by_cases hk' : k' = k0 <;> simp [dictInsert, dictGet, hk, hk', ih]

theorem dictGet_erase_ne {α β : Type} [DecidableEq α] (d : List (α × β)) (k k' : α)
    (h : k' ≠ k) : dictGet (dictErase d k) k' = dictGet d k' := by
  induction d with
  | nil => simp [dictErase]
  | cons p rest ih =>
      obtain ⟨k0, v0⟩ := p
      by_cases hk : k = k0
      · subst hk
        simp [dictErase, dictGet, h]
      · by_cases hk' : k' = k0 <;> simp [dictErase, dictGet, hk, hk', ih]

theorem dictGet_eq_none_of_not_mem {α β : Type} [DecidableEq α] (d : List (α × β))
    (k : α) (h : k ∉ dictKeys d) : dictGet d k = none := by
  induction d with
  | nil => simp [dictGet]
  | cons p rest ih =>
      obtain ⟨k0, v0⟩ := p
      simp only [dictKeys_cons, List.mem_cons] at h
      push_neg at h
      simp [dictGet, h.1, ih h.2]

theorem mem_dictKeys_iff_isSome {α β : Type} [DecidableEq α] (d : List (α × β))
    (k : α) : k ∈ dictKeys d ↔ (dictGet d k).isSome := by
  induction d with
  | nil => simp [dictKeys, dictGet]
  | cons p rest ih =>
      obtain ⟨k0, v0⟩ := p
      by_cases h : k = k0 <;> simp [dictGet, h, ← ih]

theorem dictGet_erase_self {α β : Type} [DecidableEq α] (d : List (α × β)) (k : α)
    (hnd : (dictKeys d).Nodup) : dictGet (dictErase d k) k = none := by
  induction d with
  | nil => simp [dictErase, dictGet]
  | cons p rest ih =>
      obtain ⟨k0, v0⟩ := p
      simp only [dictKeys_cons, List.nodup_cons] at hnd
      by_cases h : k = k0
      · subst h
        simp only [dictErase, if_pos rfl]
        exact dictGet_eq_none_of_not_mem rest k hnd.1
      · simp [dictErase, dictGet, h, ih hnd.2]

theorem dictErase_of_not_mem {α β : Type} [DecidableEq α] (d : List (α × β)) (k : α)
    (h : k ∉ dictKeys d) : dictErase d k = d := by
  induction d with
  | nil => simp [dictErase]
  | cons p rest ih =>
      obtain ⟨k0, v0⟩ := p
      simp only [dictKeys_cons, List.mem_cons] at h
      push_neg at h
      simp [dictErase, h.1, ih h.2]

theorem dictKeys_insert_of_mem {α β : Type} [DecidableEq α] (d : List (α × β))
    (k : α) (v : β) (h : k ∈ dictKeys d) :
    dictKeys (dictInsert d k v) = dictKeys d := by
  induction d with
  | nil => simp [dictKeys] at h
  | cons p rest ih =>
      obtain ⟨k0, v0⟩ := p
      by_cases hk : k = k0
      · simp [dictInsert, hk]
      · simp only [dictKeys_cons, List.mem_cons, hk, false_or] at h
        simp only [dictInsert, if_neg hk, dictKeys_cons, ih h]

theorem dictKeys_insert_of_not_mem {α β : Type} [DecidableEq α] (d : List (α × β))
    (k : α) (v : β) (h : k ∉ dictKeys d) :
    dictKeys (dictInsert d k v) = dictKeys d ++ [k] := by
  induction d with
  | nil => simp [dictInsert, dictKeys]
  | cons p rest ih =>
      obtain ⟨k0, v0⟩ := p
      simp only [dictKeys_cons, List.mem_cons] at h
      push_neg at h
      simp only [dictInsert, if_neg h.1, dictKeys_cons, ih h.2, List.cons_append]

theorem nodup_dictKeys_insert {α β : Type} [DecidableEq α] (d : List (α × β))
    (k : α) (v : β) (hnd : (dictKeys d).Nodup) :
    (dictKeys (dictInsert d k v)).Nodup := by
  by_cases h : k ∈ dictKeys d
  · rw [dictKeys_insert_of_mem d k v h]; exact hnd
  · rw [dictKeys_insert_of_not_mem d k v h]
    simpa [List.nodup_append] using ⟨hnd, h⟩

theorem dictKeys_erase_sublist {α β : Type} [DecidableEq α] (d : List (α × β))
    (k : α) : (dictKeys (dictErase d k)).Sublist (dictKeys d) := by
  induction d with
  | nil => simp [dictErase]
  | cons p rest ih =>
      obtain ⟨k0, v0⟩ := p
      by_cases h : k = k0
      · simp only [dictErase, if_pos h, dictKeys, List.map_cons]
        exact (List.sublist_cons_self _ _)
      · simp only [dictErase, if_neg h, dictKeys, List.map_cons]
        exact ih.cons₂ k0

theorem nodup_dictKeys_erase {α β : Type} [DecidableEq α] (d : List (α × β))
    (k : α) (hnd : (dictKeys d).Nodup) : (dictKeys (dictErase d k)).Nodup :=
  (dictKeys_erase_sublist d k).nodup hnd

theorem dictGet_eq_some_of_mem {α β : Type} [DecidableEq α] {d : List (α × β)}
    {k : α} {v : β} (hnd : (dictKeys d).Nodup) (h : (k, v) ∈ d) :
    dictGet d k = some v := by
  induction d with
  | nil => simp at h
  | cons p rest ih =>
      obtain ⟨k0, v0⟩ := p
      simp only [dictKeys_cons, List.nodup_cons] at hnd
      rcases List.mem_cons.mp h with hh | hh
      · obtain ⟨rfl, rfl⟩ := Prod.mk.inj hh
        simp [dictGet]
      · have hk : k ≠ k0 := by
          rintro rfl
          exact hnd.1 (List.mem_map_of_mem Prod.fst hh)
        simp [dictGet, hk, ih hnd.2 hh]

theorem mem_of_dictGet_eq_some {α β : Type} [DecidableEq α] {d : List (α × β)}
    {k : α} {v : β} (h : dictGet d k = some v) : (k, v) ∈ d := by
  induction d with
  | nil => simp [dictGet] at h
  | cons p rest ih =>
      obtain ⟨k0, v0⟩ := p
      by_cases hk : k = k0
      · simp only [dictGet, if_pos hk, Option.some.injEq] at h
        simp [hk, h]
      · simp only [dictGet, if_neg hk] at h
        exact List.mem_cons_of_mem _ (ih h)

/-! ### Counting values in the key map -/

/-- The number of bindings of `db` whose value is `v`.  On duplicate-free
keys (every reachable `db`) this is the number of names bound to `v`. -/
def countVal (db : List (String × String)) (v : String) : Nat :=
  match db with
  | [] => 0
  | (_, w) :: rest => (if w = v then 1 else 0) + countVal rest v

theorem countVal_insert_of_get_none (db : List (String × String)) (n v : String)
    (h : dictGet db n = none) (u : String) :
    countVal (dictInsert db n v) u = countVal db u + (if v = u then 1 else 0) := by
  induction db with
  | nil => simp [dictInsert, countVal]
  | cons p rest ih =>
      obtain ⟨k0, w0⟩ := p
      have hk : n ≠ k0 := by
        intro e
        simp [dictGet, e] at h
      have hrest : dictGet rest n = none := by
        simpa [dictGet, hk] using h
      simp only [dictInsert, if_neg hk, countVal, ih hrest]
      omega

theorem countVal_insert_of_get_some (db : List (String × String)) (n v w : String)
    (h : dictGet db n = some w) (u : String) :
    countVal (dictInsert db n v) u + (if w = u then 1 else 0)
      = countVal db u + (if v = u then 1 else 0) := by
  induction db with
  | nil => simp [dictGet] at h
  | cons p rest ih =>
      obtain ⟨k0, w0⟩ := p
      by_cases hk : n = k0
      · simp only [dictGet, if_pos hk, Option.some.injEq] at h
        subst h
        simp only [dictInsert, if_pos hk, countVal]
        omega
      · simp only [dictGet, if_neg hk] at h
        simp only [dictInsert, if_neg hk, countVal, Nat.add_assoc, ih h]

theorem countVal_erase_of_get_some (db : List (String × String)) (n w : String)
    (h : dictGet db n = some w) (u : String) :
    countVal (dictErase db n) u + (if w = u then 1 else 0) = countVal db u := by
  induction db with
  | nil => simp [dictGet] at h
  | cons p rest ih =>
      obtain ⟨k0, w0⟩ := p
      by_cases hk : n = k0
      · simp only [dictGet, if_pos hk, Option.some.injEq] at h
        subst h
        simp only [dictErase, if_pos hk, countVal]
        omega
      · simp only [dictGet, if_neg hk] at h
        simp only [dictErase, if_neg hk, countVal, Nat.add_assoc, ih h]

theorem one_le_countVal_of_get (db : List (String × String)) (n w : String)
    (h : dictGet db n = some w) : 1 ≤ countVal db w := by
  induction db with
  | nil => simp [dictGet] at h
  | cons p rest ih =>
      obtain ⟨k0, w0⟩ := p
      by_cases hk : n = k0
      · simp only [dictGet, if_pos hk, Option.some.injEq] at h
        subst h
        simp [countVal]
      · simp only [dictGet, if_neg hk] at h
        simp only [countVal]
        have := ih h
        omega

/-! ### The value-count representation invariant -/

/-- The list `vc` represents the count function `f`: duplicate-free keys, and the
entry of `v` holds exactly `f v` when positive, no entry when `f v = 0`. -/
def VCRep (vc : List (String × Int)) (f : String → Nat) : Prop :=
  (dictKeys vc).Nodup ∧
    ∀ v, dictGet vc v = if f v = 0 then none else some (f v : Int)

theorem VCRep_congr {vc : List (String × Int)} {f g : String → Nat}
    (h : VCRep vc f) (he : ∀ v, f v = g v) : VCRep vc g :=
  ⟨h.1, fun v => by rw [← he v]; exact h.2 v⟩

theorem VCRep_getD {vc : List (String × Int)} {f : String → Nat} (h : VCRep vc f)
    (v : String) : (dictGet vc v).getD 0 = (f v : Int) := by
  rw [h.2 v]
  by_cases h0 : f v = 0 <;> simp [h0]

theorem VCRep_update_none_some {vc : List (String × Int)} {f : String → Nat}
    (h : VCRep vc f) (nv : String) :
    VCRep (updateValueCount vc none (some nv))
      (fun v => if v = nv then f v + 1 else f v) := by
  refine ⟨?_, fun v => ?_⟩
  · exact nodup_dictKeys_insert _ _ _ h.1
  · by_cases hv : v = nv
    · subst hv
      show dictGet (dictInsert vc v ((dictGet vc v).getD 0 + 1)) v = _
      rw [dictGet_insert_self, VCRep_getD h v]
      simp
    · show dictGet (dictInsert vc nv ((dictGet vc nv).getD 0 + 1)) v = _
      rw [dictGet_insert_ne _ _ _ _ hv, h.2 v]
      simp [hv]

theorem VCRep_update_some_none {vc : List (String × Int)} {f : String → Nat}
    (h : VCRep vc f) (ov : String) (h1 : 1 ≤ f ov) :
    VCRep (updateValueCount vc (some ov) none)
      (fun v => if v = ov then f v - 1 else f v) := by
  have hgd := VCRep_getD h ov
  show VCRep (if (dictGet vc ov).getD 0 - 1 = 0 then dictErase vc ov
              else dictInsert vc ov ((dictGet vc ov).getD 0 - 1)) _
  rw [hgd]
  by_cases hone : f ov = 1
  · rw [if_pos (by rw [hone]; ring)]
    refine ⟨nodup_dictKeys_erase _ _ h.1, fun v => ?_⟩
    by_cases hv : v = ov
    · subst hv
      rw [dictGet_erase_self _ _ h.1]
      simp [hone]
    · rw [dictGet_erase_ne _ _ _ hv, h.2 v]
      simp [hv]
  · have h2 : 2 ≤ f ov := by omega
    rw [if_neg (by omega)]
    refine ⟨nodup_dictKeys_insert _ _ _ h.1, fun v => ?_⟩
    by_cases hv : v = ov
    · subst hv
      rw [dictGet_insert_self]
      have hc : ((f v : Int) - 1) = ((f v - 1 : Nat) : Int) := by push_cast [h1]; ring
      rw [hc]
      have hne : f v - 1 ≠ 0 := by omega
      simp [hne]
    · rw [dictGet_insert_ne _ _ _ _ hv, h.2 v]
      simp [hv]

theorem updateValueCount_some_some (vc : List (String × Int)) (ov nv : String) :
    updateValueCount vc (some ov) (some nv)
      = updateValueCount (updateValueCount vc (some ov) none) none (some nv) := rfl

theorem VCRep_update_some_some {vc : List (String × Int)} {f : String → Nat}
    (h : VCRep vc f) (ov nv : String) (h1 : 1 ≤ f ov) :
    VCRep (updateValueCount vc (some ov) (some nv))
      (fun v => if v = nv then (if v = ov then f v - 1 else f v) + 1
                else (if v = ov then f v - 1 else f v)) := by
  rw [updateValueCount_some_some]
  exact VCRep_update_none_some (VCRep_update_some_none h ov h1) nv


/-! ### The store invariant: duplicate-free keys, index counts the map -/

@[simp] theorem set_db (s : InMemoryDB) (n v : String) :
    (s.set n v).db = dictInsert s.db n v := rfl

@[simp] theorem set_value_count (s : InMemoryDB) (n v : String) :
    (s.set n v).value_count = updateValueCount s.value_count (dictGet s.db n) (some v) :=
  rfl

theorem unset_of_get_none {s : InMemoryDB} {n : String}
    (h : dictGet s.db n = none) : s.unset n = s := by
  simp [InMemoryDB.unset, h]

theorem unset_db_of_get_some {s : InMemoryDB} {n w : String}
    (h : dictGet s.db n = some w) : (s.unset n).db = dictErase s.db n := by
  simp [InMemoryDB.unset, h]

theorem unset_value_count_of_get_some {s : InMemoryDB} {n w : String}
    (h : dictGet s.db n = some w) :
    (s.unset n).value_count = updateValueCount s.value_count (some w) none := by
  simp [InMemoryDB.unset, h]

/-- The invariant every reachable state satisfies: the key map has
duplicate-free keys and the value counter represents exactly the number of
bindings per value (positive counts only). -/
def StoreInv (s : InMemoryDB) : Prop :=
  (dictKeys s.db).Nodup ∧ VCRep s.value_count (countVal s.db)

theorem StoreInv_init : StoreInv InMemoryDB.init := by
  refine ⟨by simp [InMemoryDB.init], by simp [InMemoryDB.init, VCRep], fun v => ?_⟩
  simp [InMemoryDB.init, dictGet, countVal]

/-- The joint effect of a `db[name] = value` write with its
`_update_value_count(old, value)` call preserves the representation. -/
theorem pair_write_rep {db : List (String × String)} {vc : List (String × Int)}
    (hnd : (dictKeys db).Nodup) (hrep : VCRep vc (countVal db)) (n v : String) :
    (dictKeys (dictInsert db n v)).Nodup ∧
      VCRep (updateValueCount vc (dictGet db n) (some v))
        (countVal (dictInsert db n v)) := by
  refine ⟨nodup_dictKeys_insert _ _ _ hnd, ?_⟩
  cases hold : dictGet db n with
  | none =>
      refine VCRep_congr (VCRep_update_none_some hrep v) (fun u => ?_)
      dsimp only
      rw [countVal_insert_of_get_none db n v hold u]
      by_cases huv : u = v
      · rw [if_pos huv, if_pos huv.symm]
      · rw [if_neg huv, if_neg (fun e => huv e.symm)]
        omega
  | some w =>
      have h1 := one_le_countVal_of_get db n w hold
      refine VCRep_congr (VCRep_update_some_some hrep w v h1) (fun u => ?_)
      dsimp only
      have hins := countVal_insert_of_get_some db n v w hold u
      by_cases huv : u = v
      · by_cases huw : u = w
        · rw [if_pos huv, if_pos huw]
          rw [if_pos huw.symm, if_pos huv.symm] at hins
          rw [← huw] at h1
          omega
        · rw [if_pos huv, if_neg huw]
          rw [if_neg (fun e => huw e.symm), if_pos huv.symm] at hins
          omega
      · by_cases huw : u = w
        · rw [if_neg huv, if_pos huw]
          rw [if_pos huw.symm, if_neg (fun e => huv e.symm)] at hins
          rw [← huw] at h1
          omega
        · rw [if_neg huv, if_neg huw]
          rw [if_neg (fun e => huw e.symm), if_neg (fun e => huv e.symm)] at hins
          omega

/-- The joint effect of a `del db[name]` with its
`_update_value_count(old, None)` call preserves the representation. -/
theorem pair_erase_rep {db : List (String × String)} {vc : List (String × Int)}
    (hnd : (dictKeys db).Nodup) (hrep : VCRep vc (countVal db)) {n w : String}
    (hold : dictGet db n = some w) :
    (dictKeys (dictErase db n)).Nodup ∧
      VCRep (updateValueCount vc (some w) none) (countVal (dictErase db n)) := by
  refine ⟨nodup_dictKeys_erase _ _ hnd, ?_⟩
  have h1 := one_le_countVal_of_get db n w hold
  refine VCRep_congr (VCRep_update_some_none hrep w h1) (fun u => ?_)
  dsimp only
  have hers := countVal_erase_of_get_some db n w hold u
  by_cases huw : u = w
  · rw [if_pos huw]
    rw [if_pos huw.symm] at hers
    rw [← huw] at h1
    omega
  · rw [if_neg huw]
    rw [if_neg (fun e => huw e.symm)] at hers
    omega

theorem StoreInv_set (s : InMemoryDB) (n v : String) (h : StoreInv s) :
    StoreInv (s.set n v) := by
  obtain ⟨hnd, hrep⟩ := h
  have hp := pair_write_rep hnd hrep n v
  exact ⟨by simpa using hp.1, by simpa using hp.2⟩

theorem StoreInv_unset (s : InMemoryDB) (n : String) (h : StoreInv s) :
    StoreInv (s.unset n) := by
  obtain ⟨hnd, hrep⟩ := h
  cases hold : dictGet s.db n with
  | none => rw [unset_of_get_none hold]; exact ⟨hnd, hrep⟩
  | some w =>
      have hp := pair_erase_rep hnd hrep hold
      refine ⟨?_, ?_⟩
      · rw [unset_db_of_get_some hold]; exact hp.1
      · rw [unset_db_of_get_some hold, unset_value_count_of_get_some hold]
        exact hp.2

theorem StoreInv_begin (s : InMemoryDB) (h : StoreInv s) : StoreInv s.begin := h

theorem StoreInv_commit (s : InMemoryDB) (h : StoreInv s) : StoreInv (s.commit).2 := by
  cases hts : s.transactions with
  | nil => simpa [InMemoryDB.commit, hts] using h
  | cons u rest => simpa [InMemoryDB.commit, hts, StoreInv] using h

theorem StoreInv_rollbackRestore (s : InMemoryDB)
    (entries : List (String × Option String)) (h : StoreInv s) :
    StoreInv (rollbackRestore s entries) := by
  induction entries generalizing s with
  | nil => exact h
  | cons p rest ih =>
      obtain ⟨name, old_value⟩ := p
      cases old_value with
      | none =>
          cases hcur : dictGet s.db name with
          | none =>
              simp only [rollbackRestore, hcur, Option.isSome_none, Bool.false_eq_true,
                if_false]
              exact ih _ h
          | some w =>
              simp only [rollbackRestore, hcur, Option.isSome_some, if_true]
              exact ih _ (pair_erase_rep h.1 h.2 hcur)
      | some ov =>
          simp only [rollbackRestore]
          exact ih _ (by
            have hp := pair_write_rep h.1 h.2 name ov
            exact ⟨hp.1, hp.2⟩)

theorem StoreInv_rollback (s : InMemoryDB) (h : StoreInv s) :
    StoreInv (s.rollback).2 := by
  cases hts : s.transactions with
  | nil => simpa [InMemoryDB.rollback, hts] using h
  | cons u rest =>
      simp only [InMemoryDB.rollback, hts]
      exact StoreInv_rollbackRestore _ u h

theorem StoreInv_applyOp (s : InMemoryDB) (op : Op) (h : StoreInv s) :
    StoreInv (applyOp s op) := by
  cases op with
  | set n v => exact StoreInv_set s n v h
  | unset n => exact StoreInv_unset s n h
  | get _ => exact h
  | numequalto _ => exact h
  | begin => exact StoreInv_begin s h
  | rollback => exact StoreInv_rollback s h
  | commit => exact StoreInv_commit s h

theorem StoreInv_runOps (ops : List Op) (s : InMemoryDB) (h : StoreInv s) :
    StoreInv (runOps s ops) := by
  induction ops generalizing s with
  | nil => exact h
  | cons op rest ih => exact ih _ (StoreInv_applyOp s op h)

/-! ### Counting is determined by the induced map -/

theorem countVal_eq_countP (db : List (String × String)) (v : String) :
    countVal db v = db.countP (fun p => decide (p.2 = v)) := by
  induction db with
  | nil => simp [countVal]
  | cons p rest ih =>
      obtain ⟨k, w⟩ := p
      by_cases h : w = v
      · simp [countVal, List.countP_cons, h, ih]
        omega
      · simp [countVal, List.countP_cons, h, ih]

theorem countVal_eq_of_get_eq {d1 d2 : List (String × String)}
    (h1 : (dictKeys d1).Nodup) (h2 : (dictKeys d2).Nodup)
    (h : ∀ k, dictGet d1 k = dictGet d2 k) (v : String) :
    countVal d1 v = countVal d2 v := by
  have hp : d1.Perm d2 := by
    refine (List.perm_ext_iff_of_nodup (h1.of_map _) (h2.of_map _)).2 (fun p => ?_)
    obtain ⟨k, w⟩ := p
    constructor
    · intro hm
      exact mem_of_dictGet_eq_some ((h k) ▸ dictGet_eq_some_of_mem h1 hm)
    · intro hm
      exact mem_of_dictGet_eq_some ((h k).symm ▸ dictGet_eq_some_of_mem h2 hm)
  rw [countVal_eq_countP, countVal_eq_countP]
  exact hp.countP_eq _

/-! ### Transaction-frame tracking -/

@[simp] theorem begin_db (s : InMemoryDB) : s.begin.db = s.db := rfl
@[simp] theorem begin_value_count (s : InMemoryDB) :
    s.begin.value_count = s.value_count := rfl
@[simp] theorem begin_transactions (s : InMemoryDB) :
    s.begin.transactions = [] :: s.transactions := rfl

theorem set_transactions_nil {s : InMemoryDB} (h : s.transactions = [])
    (n v : String) : (s.set n v).transactions = [] := by
  simp only [InMemoryDB.set, h]

theorem set_transactions_cons {s : InMemoryDB}
    {u : List (String × Option String)} {rest : List (List (String × Option String))}
    (h : s.transactions = u :: rest) (n v : String) :
    (s.set n v).transactions =
      (if (dictGet u n).isSome then u :: rest
       else dictInsert u n (dictGet s.db n) :: rest) := by
  simp only [InMemoryDB.set, h]

theorem unset_transactions_nil {s : InMemoryDB} (h : s.transactions = [])
    (n : String) : (s.unset n).transactions = [] := by
  cases hb : dictGet s.db n with
  | none => rw [unset_of_get_none hb]; exact h
  | some w => simp only [InMemoryDB.unset, hb, h]

theorem unset_transactions_cons {s : InMemoryDB}
    {u : List (String × Option String)} {rest : List (List (String × Option String))}
    {n w : String} (hb : dictGet s.db n = some w) (h : s.transactions = u :: rest) :
    (s.unset n).transactions =
      (if (dictGet u n).isSome then u :: rest
       else dictInsert u n (some w) :: rest) := by
  simp only [InMemoryDB.unset, hb, h]

/-- Whether `o` is a mutating call (SET or UNSET). -/
def isWrite : Op → Bool
  | .set _ _ => true
  | .unset _ => true
  | _ => false

/-- The relation between a state with an open innermost frame `u` and the
key map `db0` as of the moment the frame was pushed: the stack below the
frame is untouched, the frame has duplicate-free keys, every name the
frame records had exactly the recorded value-or-absence in `db0`, and
every unrecorded name is currently still at its `db0` value. -/
def TxRel (db0 : List (String × String))
    (rest0 : List (List (String × Option String))) (s : InMemoryDB) : Prop :=
  ∃ u, s.transactions = u :: rest0 ∧
    (dictKeys u).Nodup ∧
    (∀ k old, dictGet u k = some old → dictGet db0 k = old) ∧
    (∀ k, dictGet u k = none → dictGet s.db k = dictGet db0 k)

theorem TxRel_begin (s : InMemoryDB) : TxRel s.db s.transactions s.begin :=
  ⟨[], rfl, by simp, fun k old hk => by simp [dictGet] at hk,
    fun k _ => rfl⟩

theorem TxRel_set {db0 : List (String × String)}
    {rest0 : List (List (String × Option String))} {s : InMemoryDB}
    (h : TxRel db0 rest0 s) (n v : String) : TxRel db0 rest0 (s.set n v) := by
  obtain ⟨u, hts, hnd, hrec, hunrec⟩ := h
  by_cases hmem : (dictGet u n).isSome
  · refine ⟨u, ?_, hnd, hrec, fun k hk => ?_⟩
    · rw [set_transactions_cons hts n v, if_pos hmem]
    · have hkn : k ≠ n := by
        intro e
        rw [e] at hk
        rw [hk] at hmem
        simp at hmem
      rw [set_db, dictGet_insert_ne _ _ _ _ hkn]
      exact hunrec k hk
  · have hu : dictGet u n = none := by
      cases hg : dictGet u n with
      | none => rfl
      | some o => rw [hg] at hmem; simp at hmem
    refine ⟨dictInsert u n (dictGet s.db n), ?_,
      nodup_dictKeys_insert _ _ _ hnd, fun k old hk => ?_, fun k hk => ?_⟩
    · rw [set_transactions_cons hts n v, if_neg hmem]
    · by_cases hkn : k = n
      · subst hkn
        rw [dictGet_insert_self] at hk
        obtain rfl := Option.some.inj hk
        exact (hunrec k hu).symm
      · rw [dictGet_insert_ne _ _ _ _ hkn] at hk
        exact hrec k old hk
    · have hkn : k ≠ n := by
        intro e
        rw [e, dictGet_insert_self] at hk
        exact Option.noConfusion hk
      rw [dictGet_insert_ne _ _ _ _ hkn] at hk
      rw [set_db, dictGet_insert_ne _ _ _ _ hkn]
      exact hunrec k hk

theorem TxRel_unset {db0 : List (String × String)}
    {rest0 : List (List (String × Option String))} {s : InMemoryDB}
    (h : TxRel db0 rest0 s) (n : String) : TxRel db0 rest0 (s.unset n) := by
  cases hb : dictGet s.db n with
  | none => rw [unset_of_get_none hb]; exact h
  | some w =>
      obtain ⟨u, hts, hnd, hrec, hunrec⟩ := h
      by_cases hmem : (dictGet u n).isSome
      · refine ⟨u, ?_, hnd, hrec, fun k hk => ?_⟩
        · rw [unset_transactions_cons hb hts, if_pos hmem]
        · have hkn : k ≠ n := by
            intro e
            rw [e] at hk
            rw [hk] at hmem
            simp at hmem
          rw [unset_db_of_get_some hb, dictGet_erase_ne _ _ _ hkn]
          exact hunrec k hk
      · have hu : dictGet u n = none := by
          cases hg : dictGet u n with
          | none => rfl
          | some o => rw [hg] at hmem; simp at hmem
        refine ⟨dictInsert u n (some w), ?_,
          nodup_dictKeys_insert _ _ _ hnd, fun k old hk => ?_, fun k hk => ?_⟩
        · rw [unset_transactions_cons hb hts, if_neg hmem]
        · by_cases hkn : k = n
          · subst hkn
            rw [dictGet_insert_self] at hk
            obtain rfl := Option.some.inj hk
            rw [← hb]
            exact (hunrec k hu).symm
          · rw [dictGet_insert_ne _ _ _ _ hkn] at hk
            exact hrec k old hk
        · have hkn : k ≠ n := by
            intro e
            rw [e, dictGet_insert_self] at hk
            exact Option.noConfusion hk
          rw [dictGet_insert_ne _ _ _ _ hkn] at hk
          rw [unset_db_of_get_some hb, dictGet_erase_ne _ _ _ hkn]
          exact hunrec k hk

theorem TxRel_runWrites {db0 : List (String × String)}
    {rest0 : List (List (String × Option String))} (seq : List Op)
    (hseq : ∀ o ∈ seq, isWrite o = true) {s : InMemoryDB}
    (h : TxRel db0 rest0 s) : TxRel db0 rest0 (runOps s seq) := by
  induction seq generalizing s with
  | nil => exact h
  | cons op rest ih =>
      have hop := hseq op (List.mem_cons_self op rest)
      have hrest : ∀ o ∈ rest, isWrite o = true :=
        fun o ho => hseq o (List.mem_cons_of_mem op ho)
      cases op with
      | set n v => exact ih hrest (TxRel_set h n v)
      | unset n => exact ih hrest (TxRel_unset h n)
      | get _ => simp [isWrite] at hop
      | numequalto _ => simp [isWrite] at hop
      | begin => simp [isWrite] at hop
      | rollback => simp [isWrite] at hop
      | commit => simp [isWrite] at hop

/-! ### What the restoration loop does to each field -/

theorem rollbackRestore_transactions (s : InMemoryDB)
    (entries : List (String × Option String)) :
    (rollbackRestore s entries).transactions = s.transactions := by
  induction entries generalizing s with
  | nil => rfl
  | cons p rest ih =>
      obtain ⟨name, old_value⟩ := p
      cases old_value with
      | none =>
          cases hcur : dictGet s.db name with
          | none =>
              simp only [rollbackRestore, hcur, Option.isSome_none, Bool.false_eq_true,
                if_false]
              exact ih _
          | some w =>
              simp only [rollbackRestore, hcur, Option.isSome_some, if_true]
              exact ih _
      | some ov =>
          simp only [rollbackRestore]
          exact ih _

theorem rollbackRestore_db_nodup (s : InMemoryDB)
    (entries : List (String × Option String)) (h : (dictKeys s.db).Nodup) :
    (dictKeys (rollbackRestore s entries).db).Nodup := by
  induction entries generalizing s with
  | nil => exact h
  | cons p rest ih =>
      obtain ⟨name, old_value⟩ := p
      cases old_value with
      | none =>
          cases hcur : dictGet s.db name with
          | none =>
              simp only [rollbackRestore, hcur, Option.isSome_none, Bool.false_eq_true,
                if_false]
              exact ih _ h
          | some w =>
              simp only [rollbackRestore, hcur, Option.isSome_some, if_true]
              exact ih _ (nodup_dictKeys_erase _ _ h)
      | some ov =>
          simp only [rollbackRestore]
          exact ih _ (nodup_dictKeys_insert _ _ _ h)

/-- After the restoration loop, a recorded name holds exactly its recorded
value-or-absence, and an unrecorded name is untouched.  Requires
duplicate-free keys in the frame (which the first-mutation-wins capture
guarantees) and in `db`. -/
theorem rollbackRestore_db_get (s : InMemoryDB)
    (entries : List (String × Option String)) (hend : (dictKeys entries).Nodup)
    (hdb : (dictKeys s.db).Nodup) (k : String) :
    dictGet (rollbackRestore s entries).db k =
      (match dictGet entries k with
       | some old => old
       | none => dictGet s.db k) := by
  induction entries generalizing s with
  | nil => simp [rollbackRestore, dictGet]
  | cons p rest ih =>
      obtain ⟨name, old_value⟩ := p
      simp only [dictKeys_cons, List.nodup_cons] at hend
      -- the state after processing the head entry
      have hstep : ∀ s' : InMemoryDB,
          (dictKeys s'.db).Nodup →
          dictGet s'.db name = old_value →
          (∀ k', k' ≠ name → dictGet s'.db k' = dictGet s.db k') →
          s'.transactions = s.transactions →
          dictGet (rollbackRestore s' rest).db k =
            (match dictGet ((name, old_value) :: rest) k with
             | some old => old
             | none => dictGet s.db k) := by
        intro s' hnd' hname hother _
        rw [ih s' hend.2 hnd']
        by_cases hkn : k = name
        · subst hkn
          rw [dictGet_eq_none_of_not_mem rest k hend.1]
          simp only [dictGet, if_pos rfl]
          exact hname
        · simp only [dictGet, if_neg hkn]
          cases hg : dictGet rest k with
          | none => exact hother k hkn
          | some o => rfl
      cases old_value with
      | none =>
          cases hcur : dictGet s.db name with
          | none =>
              simp only [rollbackRestore, hcur, Option.isSome_none, Bool.false_eq_true,
                if_false]
              exact hstep s hdb hcur (fun _ _ => rfl) rfl
          | some w =>
              simp only [rollbackRestore, hcur, Option.isSome_some, if_true]
              exact hstep _ (nodup_dictKeys_erase _ _ hdb)
                (dictGet_erase_self _ _ hdb)
                (fun k' hk' => dictGet_erase_ne _ _ _ hk') rfl
      | some ov =>
          simp only [rollbackRestore]
          exact hstep _ (nodup_dictKeys_insert _ _ _ hdb)
            (dictGet_insert_self _ _ _)
            (fun k' hk' => dictGet_insert_ne _ _ _ _ hk') rfl

/-! ### Running the bracketing BEGIN and ROLLBACK sequences -/

theorem runOps_append (s : InMemoryDB) (a b : List Op) :
    runOps s (a ++ b) = runOps (runOps s a) b := by
  simp [runOps, List.foldl_append]

theorem eta_state (s : InMemoryDB) :
    { db := s.db, value_count := s.value_count, transactions := s.transactions :
      InMemoryDB } = s := rfl

theorem runOps_replicate_begin (d : Nat) (s : InMemoryDB) :
    runOps s (List.replicate d Op.begin)
      = { s with transactions := List.replicate d [] ++ s.transactions } := by
  induction d generalizing s with
  | zero => simp [runOps]
  | succ e ih =>
      rw [List.replicate_succ]
      show runOps s.begin (List.replicate e Op.begin) = _
      rw [ih]
      show ({ s with transactions := List.replicate e [] ++ ([] :: s.transactions) } :
        InMemoryDB) = _
      rw [List.replicate_succ']
      simp

theorem rollback_empty_frame (s : InMemoryDB)
    (rest : List (List (String × Option String)))
    (h : s.transactions = [] :: rest) :
    s.rollback = (none, { s with transactions := rest }) := by
  simp [InMemoryDB.rollback, h, rollbackRestore]

theorem runOps_replicate_rollback_empty (d : Nat) (s : InMemoryDB)
    (ts : List (List (String × Option String)))
    (h : s.transactions = List.replicate d [] ++ ts) :
    runOps s (List.replicate d Op.rollback) = { s with transactions := ts } := by
  induction d generalizing s with
  | zero =>
      simp only [List.replicate, List.nil_append] at h
      simp [runOps, ← h]
  | succ e ih =>
      rw [List.replicate_succ]
      show runOps (s.rollback).2 (List.replicate e Op.rollback) = _
      rw [List.replicate_succ, List.cons_append] at h
      rw [rollback_empty_frame s _ h]
      rw [ih { s with transactions := List.replicate e [] ++ ts } rfl]

theorem runOps_cons (s : InMemoryDB) (op : Op) (rest : List Op) :
    runOps s (op :: rest) = runOps (applyOp s op) rest := rfl

/-- The heart of the nested-transaction law: from any state satisfying the
store invariant, BEGIN taken `d ≥ 1` times, then any SET/UNSET calls, then
ROLLBACK taken `d` times, restores the key map and the value index (as
maps) and the whole transaction stack. -/
theorem tx_bracket (s0 : InMemoryDB) (hinv : StoreInv s0) (d : Nat) (hd : 1 ≤ d)
    (seq : List Op) (hseq : ∀ o ∈ seq, isWrite o = true) :
    (∀ k, dictGet (runOps s0
        (List.replicate d Op.begin ++ seq ++ List.replicate d Op.rollback)).db k
      = dictGet s0.db k) ∧
    (∀ v, dictGet (runOps s0
        (List.replicate d Op.begin ++ seq ++ List.replicate d Op.rollback)).value_count v
      = dictGet s0.value_count v) ∧
    (runOps s0
        (List.replicate d Op.begin ++ seq ++ List.replicate d Op.rollback)).transactions
      = s0.transactions := by
  obtain ⟨e, rfl⟩ : ∃ e, d = e + 1 := ⟨d - 1, by omega⟩
  rw [runOps_append, runOps_append]
  have hs1eq : runOps s0 (List.replicate (e + 1) Op.begin)
      = { s0 with transactions := List.replicate (e + 1) [] ++ s0.transactions } :=
    runOps_replicate_begin _ _
  have hinv1 : StoreInv (runOps s0 (List.replicate (e + 1) Op.begin)) := by
    rw [hs1eq]; exact hinv
  have htx1 : TxRel s0.db (List.replicate e [] ++ s0.transactions)
      (runOps s0 (List.replicate (e + 1) Op.begin)) := by
    rw [hs1eq]
    refine ⟨[], ?_, by simp, fun k old hk => by simp [dictGet] at hk, fun k _ => rfl⟩
    show List.replicate (e + 1) [] ++ s0.transactions
      = [] :: (List.replicate e [] ++ s0.transactions)
    rw [List.replicate_succ]
    rfl
  have hinv2 : StoreInv (runOps (runOps s0 (List.replicate (e + 1) Op.begin)) seq) :=
    StoreInv_runOps seq _ hinv1
  obtain ⟨u, hts2, hund, hrec, hunrec⟩ := TxRel_runWrites seq hseq htx1
  generalize hs2 : runOps (runOps s0 (List.replicate (e + 1) Op.begin)) seq = s2 at *
  have hroll : (s2.rollback).2
      = rollbackRestore
          { s2 with transactions := List.replicate e [] ++ s0.transactions } u := by
    simp [InMemoryDB.rollback, hts2]
  have hdb3 : ∀ k, dictGet ((s2.rollback).2).db k = dictGet s0.db k := by
    intro k
    rw [hroll, rollbackRestore_db_get
      { s2 with transactions := List.replicate e [] ++ s0.transactions } u hund
      hinv2.1 k]
    cases hg : dictGet u k with
    | some old => exact (hrec k old hg).symm
    | none => exact hunrec k hg
  have hts3 : ((s2.rollback).2).transactions
      = List.replicate e [] ++ s0.transactions := by
    rw [hroll, rollbackRestore_transactions]
  have hinv3 : StoreInv ((s2.rollback).2) := StoreInv_rollback s2 hinv2
  rw [List.replicate_succ, runOps_cons]
  show (∀ k, dictGet (runOps ((s2.rollback).2)
        (List.replicate e Op.rollback)).db k = dictGet s0.db k) ∧
    (∀ v, dictGet (runOps ((s2.rollback).2)
        (List.replicate e Op.rollback)).value_count v = dictGet s0.value_count v) ∧
    (runOps ((s2.rollback).2) (List.replicate e Op.rollback)).transactions
      = s0.transactions
  rw [runOps_replicate_rollback_empty e _ _ hts3]
  refine ⟨hdb3, fun v => ?_, rfl⟩
  show dictGet ((s2.rollback).2).value_count v = dictGet s0.value_count v
  rw [hinv3.2.2 v, hinv.2.2 v,
    countVal_eq_of_get_eq hinv3.1 hinv.1 hdb3 v]

/-! ### The claims -/

/-- C1: starting from a fresh store, after every sequence of operations and
for every value v, the names of the key map are duplicate-free,
NUMEQUALTO(v) returns exactly the number of names currently bound to v,
a value bound to no name has no ValueIndex entry, and no retained
ValueIndex entry is 0. -/
theorem C1_index_consistency (ops : List Op) (v : String) :
    (dictKeys (runOps InMemoryDB.init ops).db).Nodup ∧
    (runOps InMemoryDB.init ops).numequalto v
      = (countVal (runOps InMemoryDB.init ops).db v : Int) ∧
    (countVal (runOps InMemoryDB.init ops).db v = 0 →
      dictGet (runOps InMemoryDB.init ops).value_count v = none) ∧
    (∀ p ∈ (runOps InMemoryDB.init ops).value_count, p.2 ≠ 0) := by
  have hinv := StoreInv_runOps ops _ StoreInv_init
  refine ⟨hinv.1, VCRep_getD hinv.2 v, fun h0 => ?_, ?_⟩
  · rw [hinv.2.2 v, if_pos h0]
  · rintro ⟨pk, pc⟩ hp h0
    have hg := dictGet_eq_some_of_mem hinv.2.1 hp
    rw [hinv.2.2 pk] at hg
    by_cases hz : countVal (runOps InMemoryDB.init ops).db pk = 0
    · rw [if_pos hz] at hg
      exact Option.noConfusion hg
    · rw [if_neg hz] at hg
      have hq := Option.some.inj hg
      simp only at h0
      omega

theorem C1_index_consistency_witness :
    (dictKeys (runOps InMemoryDB.init [Op.set "x" "10", Op.set "y" "10"]).db).Nodup ∧
    (runOps InMemoryDB.init [Op.set "x" "10", Op.set "y" "10"]).numequalto "10"
      = (countVal (runOps InMemoryDB.init
          [Op.set "x" "10", Op.set "y" "10"]).db "10" : Int) ∧
    (countVal (runOps InMemoryDB.init [Op.set "x" "10", Op.set "y" "10"]).db "10" = 0 →
      dictGet (runOps InMemoryDB.init
        [Op.set "x" "10", Op.set "y" "10"]).value_count "10" = none) ∧
    (∀ p ∈ (runOps InMemoryDB.init [Op.set "x" "10", Op.set "y" "10"]).value_count,
      p.2 ≠ 0) :=
  C1_index_consistency [Op.set "x" "10", Op.set "y" "10"] "10"

/-- C2: from every reachable starting state (the only states the program
exhibits), BEGIN taken d ≥ 1 times, then any sequence of SET/UNSET calls,
then ROLLBACK taken d times, leaves the KeyMap and the ValueIndex exactly
equal, as name-to-value and value-to-count mappings (Python dict
equality), to their state before the first BEGIN. -/
theorem C2_nested_rollback (ops0 : List Op) (d : Nat) (hd : 1 ≤ d) (seq : List Op)
    (hseq : ∀ o ∈ seq, isWrite o = true) :
    (∀ k, dictGet (runOps (runOps InMemoryDB.init ops0)
        (List.replicate d Op.begin ++ seq ++ List.replicate d Op.rollback)).db k
      = dictGet (runOps InMemoryDB.init ops0).db k) ∧
    (∀ v, dictGet (runOps (runOps InMemoryDB.init ops0)
        (List.replicate d Op.begin ++ seq
          ++ List.replicate d Op.rollback)).value_count v
      = dictGet (runOps InMemoryDB.init ops0).value_count v) :=
  have h := tx_bracket (runOps InMemoryDB.init ops0)
    (StoreInv_runOps ops0 _ StoreInv_init) d hd seq hseq
  ⟨h.1, h.2.1⟩

theorem C2_nested_rollback_witness :
    dictGet (runOps (runOps InMemoryDB.init [Op.set "x" "10"])
        (List.replicate 2 Op.begin ++ [Op.set "x" "20", Op.unset "x"]
          ++ List.replicate 2 Op.rollback)).db "x"
      = dictGet (runOps InMemoryDB.init [Op.set "x" "10"]).db "x" :=
  (C2_nested_rollback [Op.set "x" "10"] 2 (by decide)
    [Op.set "x" "20", Op.unset "x"] (by decide)).1 "x"

/-- C3: the spec requires a 2-token NUMEQUALTO line (any letter case) to
print the integer count and continue; the code checks that the line has
exactly 2 tokens and then reads `command[2]`, an out-of-range access that
raises IndexError, which the loop does not catch (only EOFError is): the
session aborts instead of printing a count.  Evaluation of the dispatcher
at the failing input. -/
theorem C3_numequalto_crash :
    processLine InMemoryDB.init ["NUMEQUALTO", "10"]
      = StepResult.crash InMemoryDB.init := by decide

/-- C4: ROLLBACK and COMMIT return the literal status "NO TRANSACTION"
exactly when the transaction stack is empty, and in that case the returned
state is the whole original state — key map, value index and stack all
unchanged. -/
theorem C4_no_transaction (s : InMemoryDB) :
    (s.rollback = (some "NO TRANSACTION", s) ↔ s.transactions = []) ∧
    (s.commit = (some "NO TRANSACTION", s) ↔ s.transactions = []) := by
  cases hts : s.transactions with
  | nil => simp [InMemoryDB.rollback, InMemoryDB.commit, hts]
  | cons u rest => simp [InMemoryDB.rollback, InMemoryDB.commit, hts]

/-- C5: while a frame is innermost, the first SET or UNSET that mutates a
name records the value-or-absence of that name as of that moment in the frame
(SET records `dictGet s.db name`, the current value-or-absence; UNSET,
which mutates only when the name is bound, records the bound value), and
any later SET or UNSET of that name while the same frame is innermost
leaves the frame — in particular the recorded original — unchanged. -/
theorem C5_first_mutation_wins (s : InMemoryDB)
    (u : List (String × Option String))
    (rest : List (List (String × Option String))) (name value : String)
    (hts : s.transactions = u :: rest) :
    (dictGet u name = none →
      (s.set name value).transactions
          = dictInsert u name (dictGet s.db name) :: rest
        ∧ (∀ w, dictGet s.db name = some w →
            (s.unset name).transactions = dictInsert u name (some w) :: rest)) ∧
    (∀ old, dictGet u name = some old →
      (s.set name value).transactions = u :: rest
        ∧ (s.unset name).transactions = u :: rest) := by
  constructor
  · intro hu
    have hmem : ¬ (dictGet u name).isSome = true := by rw [hu]; simp
    constructor
    · rw [set_transactions_cons hts name value, if_neg hmem]
    · intro w hw
      rw [unset_transactions_cons hw hts, if_neg hmem]
  · intro old hold
    have hmem : (dictGet u name).isSome = true := by rw [hold]; rfl
    constructor
    · rw [set_transactions_cons hts name value, if_pos hmem]
    · cases hb : dictGet s.db name with
      | none => rw [unset_of_get_none hb, hts]
      | some w => rw [unset_transactions_cons hb hts, if_pos hmem]

theorem C5_first_mutation_wins_witness :
    (dictGet ([] : List (String × Option String)) "x" = none →
      ((InMemoryDB.init.set "x" "10").begin.set "x" "20").transactions
          = dictInsert [] "x" (dictGet (InMemoryDB.init.set "x" "10").begin.db "x")
              :: ([] : List (List (String × Option String)))
        ∧ (∀ w, dictGet (InMemoryDB.init.set "x" "10").begin.db "x" = some w →
            ((InMemoryDB.init.set "x" "10").begin.unset "x").transactions
              = dictInsert [] "x" (some w)
                  :: ([] : List (List (String × Option String))))) ∧
    (∀ old, dictGet ([] : List (String × Option String)) "x" = some old →
      ((InMemoryDB.init.set "x" "10").begin.set "x" "20").transactions
          = [] :: ([] : List (List (String × Option String)))
        ∧ ((InMemoryDB.init.set "x" "10").begin.unset "x").transactions
          = [] :: ([] : List (List (String × Option String)))) :=
  C5_first_mutation_wins (InMemoryDB.init.set "x" "10").begin [] [] "x" "20" rfl

/-- C6: COMMIT with at least one open frame prints nothing, empties the
whole transaction stack in one step, leaves the key map and the value
index untouched, and an immediately following ROLLBACK returns
"NO TRANSACTION" with the state unchanged. -/
theorem C6_commit_discards_all (s : InMemoryDB) (h : s.transactions ≠ []) :
    (s.commit).1 = none ∧
    ((s.commit).2).transactions = [] ∧
    ((s.commit).2).db = s.db ∧
    ((s.commit).2).value_count = s.value_count ∧
    ((s.commit).2).rollback = (some "NO TRANSACTION", (s.commit).2) := by
  cases hts : s.transactions with
  | nil => exact absurd hts h
  | cons u rest => simp [InMemoryDB.commit, hts, InMemoryDB.rollback]

theorem C6_commit_discards_all_witness :
    ((InMemoryDB.init.begin.set "x" "10").commit).1 = none ∧
    (((InMemoryDB.init.begin.set "x" "10").commit).2).transactions = [] ∧
    (((InMemoryDB.init.begin.set "x" "10").commit).2).db
      = (InMemoryDB.init.begin.set "x" "10").db ∧
    (((InMemoryDB.init.begin.set "x" "10").commit).2).value_count
      = (InMemoryDB.init.begin.set "x" "10").value_count ∧
    (((InMemoryDB.init.begin.set "x" "10").commit).2).rollback
      = (some "NO TRANSACTION", ((InMemoryDB.init.begin.set "x" "10").commit).2) :=
  C6_commit_discards_all (InMemoryDB.init.begin.set "x" "10") (by decide)

/-- C7, counterexample to the claim as stated: the NULL marker produced by
GET for an unbound name is the literal string "NULL", which is itself a
storable value; after SET x NULL, GET x returns exactly the string an
unbound name yields, although x is bound.  The marker is therefore not
distinguishable from every storable value. -/
theorem C7_null_counterexample :
    (InMemoryDB.init.set "x" "NULL").get "x" = "NULL" ∧
    InMemoryDB.init.get "y" = "NULL" ∧
    dictGet (InMemoryDB.init.set "x" "NULL").db "x" = some "NULL" ∧
    dictGet InMemoryDB.init.db "y" = none := by decide

/-- C7, amended: GET returns the value bound to the name when it is bound
and the string "NULL" when it is unbound, and it mutates no state; the
NULL marker is the storable string "NULL", so it is distinguishable from
every storable value other than "NULL" itself. -/
theorem C7_get_behavior (s : InMemoryDB) (name : String) :
    (∀ v, dictGet s.db name = some v → s.get name = v) ∧
    (dictGet s.db name = none → s.get name = "NULL") ∧
    applyOp s (Op.get name) = s := by
  refine ⟨fun v hv => ?_, fun hn => ?_, rfl⟩
  · rw [InMemoryDB.get, hv]
    rfl
  · rw [InMemoryDB.get, hn]
    rfl

theorem C7_get_behavior_witness :
    (∀ v, dictGet (InMemoryDB.init.set "x" "1").db "x" = some v →
      (InMemoryDB.init.set "x" "1").get "x" = v) ∧
    (dictGet (InMemoryDB.init.set "x" "1").db "x" = none →
      (InMemoryDB.init.set "x" "1").get "x" = "NULL") ∧
    applyOp (InMemoryDB.init.set "x" "1") (Op.get "x") = InMemoryDB.init.set "x" "1" :=
  C7_get_behavior (InMemoryDB.init.set "x" "1") "x"

/-- C8, counterexample to the claim as stated: the claim requires a
2-token BEGIN line to print "Invalid command" and change no state; the
dispatcher checks no arity for BEGIN (nor for ROLLBACK, COMMIT, END), so
the line "BEGIN zzz" silently opens a transaction frame — the state
changes and nothing is printed. -/
theorem C8_arity_counterexample :
    processLine InMemoryDB.init ["BEGIN", "zzz"]
      = StepResult.cont [] InMemoryDB.init.begin ∧
    InMemoryDB.init.begin ≠ InMemoryDB.init := by decide

/-- C8, amended: only SET (3 tokens), GET, UNSET and NUMEQUALTO (2 tokens
each) have their arity checked.  Every non-empty line whose upper-cased
verb is unknown, or is one of those four with the wrong token count,
prints "Invalid command", leaves the store unchanged and the loop
continues.  BEGIN, ROLLBACK, COMMIT and END accept any token count. -/
theorem C8_invalid_command (s : InMemoryDB) (c0 : String) (args : List String)
    (h : (strUpper c0 ≠ "END" ∧ strUpper c0 ≠ "SET" ∧ strUpper c0 ≠ "GET" ∧
          strUpper c0 ≠ "UNSET" ∧ strUpper c0 ≠ "NUMEQUALTO" ∧
          strUpper c0 ≠ "BEGIN" ∧ strUpper c0 ≠ "ROLLBACK" ∧
          strUpper c0 ≠ "COMMIT")
       ∨ (strUpper c0 = "SET" ∧ (c0 :: args).length ≠ 3)
       ∨ ((strUpper c0 = "GET" ∨ strUpper c0 = "UNSET" ∨
            strUpper c0 = "NUMEQUALTO") ∧ (c0 :: args).length ≠ 2)) :
    processLine s (c0 :: args) = StepResult.cont ["Invalid command"] s := by
  simp only [processLine]
  rcases h with ⟨h1, h2, h3, h4, h5, h6, h7, h8⟩ | ⟨hs, hl⟩ | ⟨hg, hl⟩
  · rw [if_neg h1, if_neg (fun hc => h2 hc.1), if_neg (fun hc => h3 hc.1),
      if_neg (fun hc => h4 hc.1), if_neg (fun hc => h5 hc.1), if_neg h6,
      if_neg h7, if_neg h8]
  · rw [hs]
    rw [if_neg (by decide : ¬ ("SET" : String) = "END")]
    rw [if_neg (fun hc => hl hc.2)]
    rw [if_neg (fun hc => absurd hc.1 (by decide))]
    rw [if_neg (fun hc => absurd hc.1 (by decide))]
    rw [if_neg (fun hc => absurd hc.1 (by decide))]
    rw [if_neg (by decide : ¬ ("SET" : String) = "BEGIN")]
    rw [if_neg (by decide : ¬ ("SET" : String) = "ROLLBACK")]
    rw [if_neg (by decide : ¬ ("SET" : String) = "COMMIT")]
  · rcases hg with hg | hg | hg
    · rw [hg]
      rw [if_neg (by decide : ¬ ("GET" : String) = "END")]
      rw [if_neg (fun hc => absurd hc.1 (by decide))]
      rw [if_neg (fun hc => hl hc.2)]
      rw [if_neg (fun hc => absurd hc.1 (by decide))]
      rw [if_neg (fun hc => absurd hc.1 (by decide))]
      rw [if_neg (by decide : ¬ ("GET" : String) = "BEGIN")]
      rw [if_neg (by decide : ¬ ("GET" : String) = "ROLLBACK")]
      rw [if_neg (by decide : ¬ ("GET" : String) = "COMMIT")]
    · rw [hg]
      rw [if_neg (by decide : ¬ ("UNSET" : String) = "END")]
      rw [if_neg (fun hc => absurd hc.1 (by decide))]
      rw [if_neg (fun hc => absurd hc.1 (by decide))]
      rw [if_neg (fun hc => hl hc.2)]
      rw [if_neg (fun hc => absurd hc.1 (by decide))]
      rw [if_neg (by decide : ¬ ("UNSET" : String) = "BEGIN")]
      rw [if_neg (by decide : ¬ ("UNSET" : String) = "ROLLBACK")]
      rw [if_neg (by decide : ¬ ("UNSET" : String) = "COMMIT")]
    · rw [hg]
      rw [if_neg (by decide : ¬ ("NUMEQUALTO" : String) = "END")]
      rw [if_neg (fun hc => absurd hc.1 (by decide))]
      rw [if_neg (fun hc => absurd hc.1 (by decide))]
      rw [if_neg (fun hc => absurd hc.1 (by decide))]
      rw [if_neg (fun hc => hl hc.2)]
      rw [if_neg (by decide : ¬ ("NUMEQUALTO" : String) = "BEGIN")]
      rw [if_neg (by decide : ¬ ("NUMEQUALTO" : String) = "ROLLBACK")]
      rw [if_neg (by decide : ¬ ("NUMEQUALTO" : String) = "COMMIT")]

theorem C8_invalid_command_witness :
    processLine InMemoryDB.init ["FOO"]
      = StepResult.cont ["Invalid command"] InMemoryDB.init ∧
    processLine InMemoryDB.init ["SET", "x"]
      = StepResult.cont ["Invalid command"] InMemoryDB.init :=
  ⟨C8_invalid_command InMemoryDB.init "FOO" [] (Or.inl (by decide)),
   C8_invalid_command InMemoryDB.init "SET" ["x"] (Or.inr (Or.inl (by decide)))⟩

/-- C9: ROLLBACK with at least one open frame prints nothing and pops
exactly the innermost frame: the resulting stack is the remaining outer
frames unchanged; the restoration loop never touches the transaction
stack at all (so it records nothing into any outer frame), and a
restoration step computes its ValueIndex delta against
`dictGet t.db name`, the current value of the name at rollback time. -/
theorem C9_rollback_pops_innermost (s : InMemoryDB)
    (u : List (String × Option String))
    (rest : List (List (String × Option String)))
    (hts : s.transactions = u :: rest) :
    (s.rollback).1 = none ∧
    (s.rollback).2 = rollbackRestore { s with transactions := rest } u ∧
    ((s.rollback).2).transactions = rest ∧
    (∀ (t : InMemoryDB) (entries : List (String × Option String)),
      (rollbackRestore t entries).transactions = t.transactions) ∧
    (∀ (t : InMemoryDB) (name ov : String) (es : List (String × Option String)),
      rollbackRestore t ((name, some ov) :: es)
        = rollbackRestore
            { t with db := dictInsert t.db name ov
                     value_count := updateValueCount t.value_count
                       (dictGet t.db name) (some ov) } es) := by
  refine ⟨?_, ?_, ?_, rollbackRestore_transactions, fun t name ov es => rfl⟩
  · simp [InMemoryDB.rollback, hts]
  · simp [InMemoryDB.rollback, hts]
  · simp [InMemoryDB.rollback, hts, rollbackRestore_transactions]

theorem C9_rollback_pops_innermost_witness :
    (((InMemoryDB.init.set "x" "1").begin).rollback).1 = none ∧
    (((InMemoryDB.init.set "x" "1").begin).rollback).2
      = rollbackRestore
          { (InMemoryDB.init.set "x" "1").begin with
              transactions := ([] : List (List (String × Option String))) } [] ∧
    ((((InMemoryDB.init.set "x" "1").begin).rollback).2).transactions
      = ([] : List (List (String × Option String))) ∧
    (∀ (t : InMemoryDB) (entries : List (String × Option String)),
      (rollbackRestore t entries).transactions = t.transactions) ∧
    (∀ (t : InMemoryDB) (name ov : String) (es : List (String × Option String)),
      rollbackRestore t ((name, some ov) :: es)
        = rollbackRestore
            { t with db := dictInsert t.db name ov
                     value_count := updateValueCount t.value_count
                       (dictGet t.db name) (some ov) } es) :=
  C9_rollback_pops_innermost (InMemoryDB.init.set "x" "1").begin [] [] rfl

/-- C10: SET and UNSET never change the number of open transaction frames
and never modify any frame below the innermost (the tail of the stack is
untouched); with no open frame the stack stays empty. -/
theorem C10_set_unset_stack (s : InMemoryDB) (name value : String) :
    ((s.set name value).transactions.length = s.transactions.length ∧
      (s.set name value).transactions.tail = s.transactions.tail) ∧
    ((s.unset name).transactions.length = s.transactions.length ∧
      (s.unset name).transactions.tail = s.transactions.tail) ∧
    (s.transactions = [] →
      (s.set name value).transactions = [] ∧ (s.unset name).transactions = []) := by
  have hset : (s.set name value).transactions.length = s.transactions.length ∧
      (s.set name value).transactions.tail = s.transactions.tail := by
    cases hts : s.transactions with
    | nil =>
        rw [set_transactions_nil hts]
        exact ⟨rfl, rfl⟩
    | cons u rest =>
        rw [set_transactions_cons hts name value]
        by_cases hmem : (dictGet u name).isSome <;> simp [hmem]
  have hunset : (s.unset name).transactions.length = s.transactions.length ∧
      (s.unset name).transactions.tail = s.transactions.tail := by
    cases hb : dictGet s.db name with
    | none =>
        rw [unset_of_get_none hb]
        exact ⟨rfl, rfl⟩
    | some w =>
        cases hts : s.transactions with
        | nil =>
            rw [unset_transactions_nil hts]
            exact ⟨rfl, rfl⟩
        | cons u rest =>
            rw [unset_transactions_cons hb hts]
            by_cases hmem : (dictGet u name).isSome <;> simp [hmem]
  exact ⟨hset, hunset, fun he =>
    ⟨set_transactions_nil he name value, unset_transactions_nil he name⟩⟩

theorem C10_set_unset_stack_witness :
    (((InMemoryDB.init.set "x" "1").transactions.length
        = InMemoryDB.init.transactions.length ∧
      (InMemoryDB.init.set "x" "1").transactions.tail
        = InMemoryDB.init.transactions.tail) ∧
     ((InMemoryDB.init.unset "x").transactions.length
        = InMemoryDB.init.transactions.length ∧
      (InMemoryDB.init.unset "x").transactions.tail
        = InMemoryDB.init.transactions.tail) ∧
     (InMemoryDB.init.transactions = [] →
       (InMemoryDB.init.set "x" "1").transactions = [] ∧
       (InMemoryDB.init.unset "x").transactions = [])) :=
  C10_set_unset_stack InMemoryDB.init "x" "1"
